import Mathlib

/-!
Verification of the MCTS driver in `src/mcts_vanilla.py`.

The tree of `MCTSNode` objects is embedded as an arena: a list of nodes in
creation order, with parent and child links stored as indices into the list.
The root is always index 0.  The rules engine (`p2_t3.Board`) is out of scope
of the repository and is modelled as an abstract structure of the five
operations the driver calls.  Python `float` arithmetic in `ucb` is modelled
over the reals, with `float('inf')` as the top element of `WithTop Real`.
Randomness in `rollout` (`random.choice`) is modelled by an explicit stream of
numbers that selects an index into the legal-action list.
-/

namespace MCTS

abbrev Action := Nat

/-- Rules-engine interface (`p2_t3.Board`), out of scope of the repository per
the spec; the five operations used by `mcts_vanilla.py`.  `points_values`
returns `none` for a state for which no outcome is derivable (Python `None`). -/
structure Board (σ : Type) where
  current_player : σ → Nat
  legal_actions : σ → List Action
  next_state : σ → Action → σ
  is_ended : σ → Bool
  points_values : σ → Option (Nat → Int)

/-- One tree node, mirroring the attributes of `MCTSNode` that
`mcts_vanilla.py` reads and writes: `parent`, `parent_action`, `child_nodes`
(a dict from action to child, kept in insertion order), `untried_actions`,
`visits`, `wins`.  Parent and children are arena indices. -/
structure MCTSNode where
  parent : Option Nat
  parent_action : Option Action
  child_nodes : List (Action × Nat)
  untried_actions : List Action
  visits : Nat
  wins : Nat
deriving DecidableEq, Repr

instance : Inhabited MCTSNode := ⟨⟨none, none, [], [], 0, 0⟩⟩

abbrev Tree := List MCTSNode

def getNode (t : Tree) (i : Nat) : MCTSNode := t.getD i default

def setNode (t : Tree) (i : Nat) (n : MCTSNode) : Tree := t.set i n

/-- Modelled from the spec: the constructor of `MCTSNode` lives in
`mcts_node.py`, which is not under `src/`.  Per spec section 3 and 4.1, a node
is constructed from a parent reference (or none), the action that produced it
(or none), and the full legal-action list of its state; `untried_actions` is
initialized to that list, the children mapping starts empty, and `visits` and
`wins` start at 0. -/
def mkNode (parent : Option Nat) (parent_action : Option Action)
    (action_list : List Action) : MCTSNode :=
  ⟨parent, parent_action, [], action_list, 0, 0⟩

/-- Python dict assignment `d[a] = j`: overwrite in place if the key exists,
otherwise append (insertion order preserved). -/
def assocSet (l : List (Action × Nat)) (a : Action) (j : Nat) :
    List (Action × Nat) :=
  if l.any (fun p => p.1 = a) then
    l.map (fun p => if p.1 = a then (a, j) else p)
  else l ++ [(a, j)]

def num_nodes : Nat := 1000

def explore_faction : Real := 2

def MAX_DEPTH : Nat := 100

/-- The visit count `node.parent.visits` read by `ucb`.  The source
dereferences `node.parent` unconditionally, so the `none` branch would be an
`AttributeError` in Python; it is unreachable in selection (claim C9). -/
def parentVisits (t : Tree) (n : MCTSNode) : Nat :=
  match n.parent with
  | some p => (getNode t p).visits
  | none => 0

/-- `ucb(node, is_opponent)` from the source: infinity for an unvisited node,
otherwise win rate (inverted for an opponent move) plus the exploration term
`explore_faction * sqrt(log(node.parent.visits) / node.visits)`. -/
noncomputable def ucb (t : Tree) (n : MCTSNode) (is_opponent : Bool) :
    WithTop Real :=
  if n.visits = 0 then ⊤
  else
    let win_rate : Real := (n.wins : Real) / (n.visits : Real)
    let win_rate : Real := if is_opponent then 1 - win_rate else win_rate
    let exploration_term : Real :=
      explore_faction *
        Real.sqrt (Real.log (parentVisits t n) / (n.visits : Real))
    ((win_rate + exploration_term : Real) : WithTop Real)

open Classical in
/-- `max(ucb_values, key=ucb_values.get)` followed by the dict lookup
`node.child_nodes[best_action]`: the first entry of the children mapping
attaining the maximal ucb value (Python `max` keeps the first maximum in
iteration order; dict keys are unique). -/
noncomputable def pickChild (t : Tree) (is_opponent : Bool) :
    List (Action × Nat) → Option (Action × Nat)
  | [] => none
  | c :: cs =>
      some (cs.foldl
        (fun best c2 =>
          if ucb t (getNode t c2.2) is_opponent >
              ucb t (getNode t best.2) is_opponent then c2 else best)
        c)

/-- The `is_opponent` computation inside the loop of `traverse_nodes`: false
when the current node is the root (no parent), otherwise set when the mover of
the current state differs from the bot. -/
def oppFlag (b : Board σ) (n : MCTSNode) (s : σ) (bot_identity : Nat) : Bool :=
  match n.parent with
  | none => false
  | some _ => b.current_player s != bot_identity

/-- `traverse_nodes`: walk down while the node has children and no untried
actions, at each step scoring every child with `ucb` under the opponent flag
and descending into the best one while advancing the state.  The source uses
an unbounded `while`; the embedding takes explicit fuel, and the driver passes
the arena size, which suffices on well-formed trees (child indices strictly
increase along any path). -/
noncomputable def traverse_nodes (b : Board σ) (t : Tree) (bot_identity : Nat) :
    Nat → σ → Nat → Nat × σ
  | i, s, 0 => (i, s)
  | i, s, fuel + 1 =>
      let n := getNode t i
      if n.child_nodes ≠ [] ∧ n.untried_actions = [] then
        match pickChild t (oppFlag b n s bot_identity) n.child_nodes with
        | some (a, j) => traverse_nodes b t bot_identity j (b.next_state s a) fuel
        | none => (i, s)
      else (i, s)

/-- `expand_leaf`: when the node still has untried actions, pop one (Python
`list.pop` removes the last element; the container type lives in the missing
`mcts_node.py`, and the spec leaves the consumption order arbitrary), compute
the successor state, create a child node seeded with the legal actions of that
successor, and register it in the children mapping.  The source then executes
`return node, state`: the ORIGINAL node and the ORIGINAL state, not the new
child and its state (its own docstring notwithstanding). -/
def expand_leaf (b : Board σ) (t : Tree) (i : Nat) (s : σ) : Tree × Nat × σ :=
  let n := getNode t i
  match n.untried_actions.getLast? with
  | none => (t, i, s)
  | some action =>
      let n1 : MCTSNode := { n with untried_actions := n.untried_actions.dropLast }
      let new_state := b.next_state s action
      let new_node := mkNode (some i) (some action) (b.legal_actions new_state)
      let n2 : MCTSNode := { n1 with child_nodes := assocSet n1.child_nodes action t.length }
      (setNode t i n2 ++ [new_node], i, s)

/-- Body of `rollout`: play random legal actions while the state is not ended
and the depth is below `MAX_DEPTH`, stopping early when no legal action
remains.  `choice(legal_actions)` is modelled by indexing with the stream
`ch`. -/
def rolloutGo (b : Board σ) (ch : Nat → Nat) : σ → Nat → Nat → σ
  | s, _, 0 => s
  | s, depth, fuel + 1 =>
      if b.is_ended s = false ∧ depth < MAX_DEPTH then
        match b.legal_actions s with
        | [] => s
        | l@(_ :: _) =>
            rolloutGo b ch (b.next_state s (l.getD (ch depth % l.length) 0))
              (depth + 1) fuel
      else s

def rollout (b : Board σ) (s : σ) (ch : Nat → Nat) : σ :=
  rolloutGo b ch s 0 MAX_DEPTH

/-- `backpropagate`: walk the parent chain from the starting node (possibly
none), incrementing `visits` everywhere and `wins` when `won`.  Fuel models
the unbounded `while`; the driver passes the arena size, which suffices since
parent indices strictly decrease. -/
def backpropagate (won : Bool) : Tree → Option Nat → Nat → Tree
  | t, _, 0 => t
  | t, none, _ => t
  | t, some i, fuel + 1 =>
      let n := getNode t i
      let n1 : MCTSNode :=
        { n with visits := n.visits + 1, wins := n.wins + if won then 1 else 0 }
      backpropagate won (setNode t i n1) n.parent fuel

/-- `is_win`: look up the outcome mapping of the state; the source asserts it
is not `None` (`none` here models the `AssertionError`), then reports whether
the bot's entry equals 1. -/
def is_win (b : Board σ) (s : σ) (identity_of_bot : Nat) : Option Bool :=
  match b.points_values s with
  | none => none
  | some outcome => some (outcome identity_of_bot == 1)

/-- `get_best_action`: scan the root's children in mapping order keeping the
first child whose visit count strictly exceeds the running maximum
(initialized to -1); return its action, or `None` when there are no
children. -/
def get_best_action (t : Tree) (root_node : Nat) : Option Action :=
  ((getNode t root_node).child_nodes.foldl
    (fun acc p =>
      if ((getNode t p.2).visits : Int) > acc.2
      then (some p.1, ((getNode t p.2).visits : Int))
      else acc)
    ((none : Option Action), (-1 : Int))).1

/-- One iteration of the loop in `think`: selection from the root, expansion
when the selected node has untried actions, rollout from the returned state,
classification by `is_win` (`Except.error` models the `AssertionError`
escaping `think`), and backpropagation from the returned node. -/
noncomputable def iterateOnce (b : Board σ) (current_state : σ)
    (bot_identity : Nat) (t : Tree) (ch : Nat → Nat) : Except Unit Tree :=
  let r := traverse_nodes b t bot_identity 0 current_state t.length
  let e := if (getNode t r.1).untried_actions ≠ [] then
      expand_leaf b t r.1 r.2 else (t, r.1, r.2)
  let final_state := rollout b e.2.2 ch
  match is_win b final_state bot_identity with
  | none => .error ()
  | some won => .ok (backpropagate won e.1 (some e.2.1) e.1.length)

/-- The first `k` iterations of the loop in `think`; iteration `m` draws its
rollout randomness from `ch m`. -/
noncomputable def thinkLoop (b : Board σ) (current_state : σ)
    (bot_identity : Nat) (ch : Nat → Nat → Nat) : Nat → Tree → Except Unit Tree
  | 0, t => .ok t
  | k + 1, t =>
      match thinkLoop b current_state bot_identity ch k t with
      | .error e => .error e
      | .ok t1 => iterateOnce b current_state bot_identity t1 (ch k)

/-- `think`: fix the bot identity, build the root node from the legal actions
of the current state, run `num_nodes` iterations, and extract the best action
(`.ok none` models `think` returning Python `None`). -/
noncomputable def think (b : Board σ) (current_state : σ)
    (ch : Nat → Nat → Nat) : Except Unit (Option Action) :=
  let bot_identity := b.current_player current_state
  let root_node := mkNode none none (b.legal_actions current_state)
  Except.map (fun t => get_best_action t 0)
    (thinkLoop b current_state bot_identity ch num_nodes [root_node])

/-- Ghost: the list of arena indices visited by `backpropagate` when started
at the given (possibly absent) node with the given fuel: the parent chain. -/
def chainGo (t : Tree) : Option Nat → Nat → List Nat
  | _, 0 => []
  | none, _ => []
  | some i, fuel + 1 => i :: chainGo t (getNode t i).parent fuel

/-- Ghost: the multiset of `node.parent.visits` values read by `ucb` during
one run of `traverse_nodes`, in evaluation order: at every step of the walk
that scores the children of the current node, one entry per child. -/
noncomputable def selParentVisits (b : Board σ) (t : Tree) (bot_identity : Nat) :
    Nat → σ → Nat → List Nat
  | _, _, 0 => []
  | i, s, fuel + 1 =>
      let n := getNode t i
      if n.child_nodes ≠ [] ∧ n.untried_actions = [] then
        n.child_nodes.map (fun p => parentVisits t (getNode t p.2)) ++
          match pickChild t (oppFlag b n s bot_identity) n.child_nodes with
          | some (a, j) =>
              selParentVisits b t bot_identity j (b.next_state s a) fuel
          | none => []
      else []

/-! ### Well-formedness of the arena -/

/-- The parent index, when present, is strictly below the node's own index. -/
def ParentLt : Option Nat → Nat → Prop
  | none, _ => True
  | some j, i => j < i

instance : ∀ o i, Decidable (ParentLt o i)
  | none, _ => isTrue trivial
  | some j, i => Nat.decLt j i

/-- Arena well-formedness: nonempty, the root (index 0) is the unique node
without a parent, parent indices strictly decrease, and every child edge
points strictly upward in creation order, inside the arena, and back-links to
its parent.  Holds for the singleton root arena and is preserved by every
phase of the search. -/
def WF (t : Tree) : Prop :=
  0 < t.length ∧
  (∀ i < t.length, ((getNode t i).parent = none ↔ i = 0)) ∧
  (∀ i < t.length, ParentLt (getNode t i).parent i) ∧
  (∀ i < t.length, ∀ p ∈ (getNode t i).child_nodes,
    i < p.2 ∧ p.2 < t.length ∧ (getNode t p.2).parent = some i)

/-- Every node that has acquired children has been visited at least once.
This is the invariant that keeps `log(node.parent.visits)` well-defined in
selection (claim C9). -/
def VisitedInv (t : Tree) : Prop :=
  ∀ i < t.length, (getNode t i).child_nodes ≠ [] → 1 ≤ (getNode t i).visits

instance WF.instDec (t : Tree) : Decidable (WF t) := by
  unfold WF
  infer_instance

instance VisitedInv.instDec (t : Tree) : Decidable (VisitedInv t) := by
  unfold VisitedInv
  infer_instance

/-! ### Basic arena lemmas -/

theorem length_setNode (t : Tree) (i : Nat) (n : MCTSNode) :
    (setNode t i n).length = t.length := List.length_set t i n

theorem getNode_setNode_self (t : Tree) (i : Nat) (n : MCTSNode)
    (h : i < t.length) : getNode (setNode t i n) i = n := by
  simp [getNode, setNode, List.getD, List.getElem?_set_self h]

theorem getNode_setNode_ne (t : Tree) (i j : Nat) (n : MCTSNode)
    (h : j ≠ i) : getNode (setNode t i n) j = getNode t j := by
  simp [getNode, setNode, List.getD, List.getElem?_set_ne (Ne.symm h)]

theorem getNode_append_lt (t : Tree) (x : MCTSNode) (j : Nat)
    (h : j < t.length) : getNode (t ++ [x]) j = getNode t j := by
  simp [getNode, List.getD, List.getElem?_append_left h]

theorem getNode_append_len (t : Tree) (x : MCTSNode) :
    getNode (t ++ [x]) t.length = x := by
  simp [getNode, List.getD]

/-- The visits/wins update applied to each node on the backpropagation path. -/
def bumpNode (won : Bool) (n : MCTSNode) : MCTSNode :=
  { n with visits := n.visits + 1, wins := n.wins + if won then 1 else 0 }

theorem getNode_of_len_le (t : Tree) (i : Nat) (h : t.length ≤ i) :
    getNode t i = default := by
  simp [getNode, List.getD, List.getElem?_eq_none h]

theorem parentLt_of_WF {t : Tree} (hwf : WF t) : ∀ k, ParentLt (getNode t k).parent k := by
  intro k
  by_cases hk : k < t.length
  · exact hwf.2.2.1 k hk
  · rw [getNode_of_len_le t k (Nat.le_of_not_lt hk)]
    exact trivial

theorem chainGo_none (t : Tree) (fuel : Nat) : chainGo t none fuel = [] := by
  cases fuel <;> rfl

theorem chainGo_congr {t1 t2 : Tree}
    (h : ∀ k, (getNode t1 k).parent = (getNode t2 k).parent) :
    ∀ fuel o, chainGo t1 o fuel = chainGo t2 o fuel := by
  intro fuel
  induction fuel with
  | zero => intro o; cases o <;> rfl
  | succ f ih =>
      intro o
      cases o with
      | none => rfl
      | some i => simp only [chainGo, h i, ih]

theorem chainGo_le {t : Tree} (hp : ∀ k, ParentLt (getNode t k).parent k) :
    ∀ fuel i j, j ∈ chainGo t (some i) fuel → j ≤ i := by
  intro fuel
  induction fuel with
  | zero => intro i j h; simp [chainGo] at h
  | succ f ih =>
      intro i j h
      simp only [chainGo, List.mem_cons] at h
      rcases h with h | h
      · exact h.le
      · cases hpar : (getNode t i).parent with
        | none => rw [hpar, chainGo_none] at h; simp at h
        | some p =>
            rw [hpar] at h
            have hpi : p < i := by have := hp i; rw [hpar] at this; exact this
            exact (ih p j h).trans hpi.le

theorem chainGo_nodup {t : Tree} (hp : ∀ k, ParentLt (getNode t k).parent k) :
    ∀ fuel i, (chainGo t (some i) fuel).Nodup := by
  intro fuel
  induction fuel with
  | zero => intro i; simp [chainGo]
  | succ f ih =>
      intro i
      simp only [chainGo, List.nodup_cons]
      constructor
      · cases hpar : (getNode t i).parent with
        | none => rw [chainGo_none]; simp
        | some p =>
            intro hmem
            have hpi : p < i := by have := hp i; rw [hpar] at this; exact this
            exact absurd (chainGo_le hp f p i hmem) (Nat.not_le_of_lt hpi)
      · cases hpar : (getNode t i).parent with
        | none => rw [chainGo_none]; simp
        | some p => exact ih p

theorem chainGo_self_mem (t : Tree) (i fuel : Nat) :
    i ∈ chainGo t (some i) (fuel + 1) := by
  simp [chainGo]

theorem chainGo_zero_mem {t : Tree} (hwf : WF t) :
    ∀ fuel i, i < t.length → i + 1 ≤ fuel → 0 ∈ chainGo t (some i) fuel := by
  intro fuel
  induction fuel with
  | zero => intro i _ h; exact absurd h (by omega)
  | succ f ih =>
      intro i hi hfi
      by_cases h0 : i = 0
      · subst h0; simp [chainGo]
      · cases hpar : (getNode t i).parent with
        | none => exact absurd ((hwf.2.1 i hi).mp hpar) h0
        | some p =>
            have hpi : p < i := by
              have := parentLt_of_WF hwf i; rw [hpar] at this; exact this
            simp only [chainGo, hpar, List.mem_cons]
            exact Or.inr (ih p (hpi.trans hi) (by omega))

theorem backprop_none (won : Bool) (t : Tree) (fuel : Nat) :
    backpropagate won t none fuel = t := by
  cases fuel <;> rfl

theorem backprop_length (won : Bool) :
    ∀ fuel t o, (backpropagate won t o fuel).length = t.length := by
  intro fuel
  induction fuel with
  | zero => intro t o; cases o <;> rfl
  | succ f ih =>
      intro t o
      cases o with
      | none => rfl
      | some i => simp only [backpropagate, ih, length_setNode]

theorem parent_setNode_bump (won : Bool) (t : Tree) (i : Nat) :
    ∀ k, (getNode (setNode t i (bumpNode won (getNode t i))) k).parent =
      (getNode t k).parent := by
  intro k
  by_cases hk : k = i
  · subst hk
    by_cases hi : k < t.length
    · rw [getNode_setNode_self t k _ hi]; rfl
    · rw [setNode, List.set_eq_of_length_le (Nat.le_of_not_lt hi)]
  · rw [getNode_setNode_ne t i k _ hk]

/-- Characterization of `backpropagate` started at a live node: each node on
the parent chain (and nothing else) gets its statistics bumped exactly once. -/
theorem backprop_getNode (won : Bool) :
    ∀ fuel t i, (∀ k, ParentLt (getNode t k).parent k) → i < t.length →
      ∀ j, getNode (backpropagate won t (some i) fuel) j =
        if j ∈ chainGo t (some i) fuel then bumpNode won (getNode t j)
        else getNode t j := by
  intro fuel
  induction fuel with
  | zero => intro t i _ _ j; simp [backpropagate, chainGo]
  | succ f ih =>
      intro t i hp hi j
      have hunf : backpropagate won t (some i) (f + 1) =
          backpropagate won (setNode t i (bumpNode won (getNode t i)))
            (getNode t i).parent f := rfl
      set t1 := setNode t i (bumpNode won (getNode t i)) with ht1
      have hpar1 : ∀ k, (getNode t1 k).parent = (getNode t k).parent :=
        parent_setNode_bump won t i
      have hp1 : ∀ k, ParentLt (getNode t1 k).parent k := by
        intro k; rw [hpar1 k]; exact hp k
      have hget1 : ∀ k, getNode t1 k =
          if k = i then bumpNode won (getNode t i) else getNode t k := by
        intro k
        by_cases hk : k = i
        · subst hk; rw [if_pos rfl]; exact getNode_setNode_self t k _ hi
        · rw [if_neg hk]; exact getNode_setNode_ne t i k _ hk
      cases hpp : (getNode t i).parent with
      | none =>
          rw [hunf, hpp, backprop_none]
          have hchain : chainGo t (some i) (f + 1) = [i] := by
            simp [chainGo, hpp, chainGo_none]
          rw [hchain, hget1 j]
          by_cases hj : j = i
          · subst hj; simp
          · simp [hj]
      | some p =>
          have hpi : p < i := by have := hp i; rw [hpp] at this; exact this
          have hchain : chainGo t (some i) (f + 1) = i :: chainGo t (some p) f := by
            simp [chainGo, hpp]
          have hnotmem : i ∉ chainGo t (some p) f := by
            intro hmem
            exact absurd (chainGo_le hp f p i hmem) (Nat.not_le_of_lt hpi)
          have hchain1 : chainGo t1 (some p) f = chainGo t (some p) f :=
            chainGo_congr hpar1 f (some p)
          rw [hunf, hpp]
          rw [ih t1 p hp1 (by rw [ht1, length_setNode]; exact hpi.trans hi) j]
          rw [hchain1, hchain, hget1 j]
          by_cases hj : j = i
          · subst hj
            rw [if_neg hnotmem, if_pos (by simp)]
            simp
          · simp only [if_neg hj, List.mem_cons]
            by_cases hjm : j ∈ chainGo t (some p) f
            · rw [if_pos hjm, if_pos (Or.inr hjm)]
            · rw [if_neg hjm, if_neg (by rintro (h | h); exact hj h; exact hjm h)]

theorem backprop_getNode_offchain (won : Bool) (fuel : Nat) {t : Tree} {i : Nat}
    (hp : ∀ k, ParentLt (getNode t k).parent k) (hi : i < t.length) {j : Nat}
    (hj : j ∉ chainGo t (some i) fuel) :
    getNode (backpropagate won t (some i) fuel) j = getNode t j := by
  rw [backprop_getNode won fuel t i hp hi j, if_neg hj]

theorem backprop_visits_le (won : Bool) (fuel : Nat) {t : Tree} {i : Nat}
    (hp : ∀ k, ParentLt (getNode t k).parent k) (hi : i < t.length) (j : Nat) :
    (getNode t j).visits ≤ (getNode (backpropagate won t (some i) fuel) j).visits := by
  rw [backprop_getNode won fuel t i hp hi j]
  by_cases hj : j ∈ chainGo t (some i) fuel
  · rw [if_pos hj]; exact Nat.le_succ _
  · rw [if_neg hj]

theorem backprop_structure (won : Bool) (fuel : Nat) {t : Tree} {i : Nat}
    (hp : ∀ k, ParentLt (getNode t k).parent k) (hi : i < t.length) (j : Nat) :
    (getNode (backpropagate won t (some i) fuel) j).parent = (getNode t j).parent ∧
    (getNode (backpropagate won t (some i) fuel) j).child_nodes =
      (getNode t j).child_nodes ∧
    (getNode (backpropagate won t (some i) fuel) j).untried_actions =
      (getNode t j).untried_actions := by
  rw [backprop_getNode won fuel t i hp hi j]
  by_cases hj : j ∈ chainGo t (some i) fuel
  · rw [if_pos hj]; exact ⟨rfl, rfl, rfl⟩
  · rw [if_neg hj]; exact ⟨rfl, rfl, rfl⟩

theorem backprop_WF (won : Bool) (fuel : Nat) {t : Tree} {i : Nat}
    (hwf : WF t) (hi : i < t.length) :
    WF (backpropagate won t (some i) fuel) := by
  have hp := parentLt_of_WF hwf
  have hlen : (backpropagate won t (some i) fuel).length = t.length :=
    backprop_length won fuel t (some i)
  have hstruct := backprop_structure won fuel hp hi
  refine ⟨by rw [hlen]; exact hwf.1, ?_, ?_, ?_⟩
  · intro k hk
    rw [(hstruct k).1]
    exact hwf.2.1 k (by rwa [hlen] at hk)
  · intro k hk
    rw [(hstruct k).1]
    exact hwf.2.2.1 k (by rwa [hlen] at hk)
  · intro k hk p hmem
    rw [(hstruct k).2.1] at hmem
    have := hwf.2.2.2 k (by rwa [hlen] at hk) p hmem
    exact ⟨this.1, by rw [hlen]; exact this.2.1, by rw [(hstruct p.2).1]; exact this.2.2⟩

/-! ### Selection lemmas -/

theorem foldl_pick_mem {α : Type} (g : α → α → α)
    (hg : ∀ a c, g a c = a ∨ g a c = c) :
    ∀ (cs : List α) (c : α), (cs.foldl g c) ∈ c :: cs := by
  intro cs
  induction cs with
  | nil => intro c; simp
  | cons c2 cs ih =>
      intro c
      simp only [List.foldl_cons]
      rcases List.mem_cons.mp (ih (g c c2)) with h1 | h1
      · rcases hg c c2 with h2 | h2 <;> rw [h1, h2] <;> simp
      · simp [h1]

theorem pickChild_mem {t : Tree} {flag : Bool} {l : List (Action × Nat)}
    {c : Action × Nat} (h : pickChild t flag l = some c) : c ∈ l := by
  cases l with
  | nil => simp [pickChild] at h
  | cons c0 cs =>
      simp only [pickChild, Option.some_inj] at h
      rw [← h]
      exact foldl_pick_mem _ (fun a c => (ite_eq_or_eq _ _ _).symm) cs c0

theorem pickChild_ne_none {t : Tree} {flag : Bool} {l : List (Action × Nat)}
    (h : l ≠ []) : pickChild t flag l ≠ none := by
  cases l with
  | nil => exact absurd rfl h
  | cons c0 cs => simp [pickChild]

theorem traverse_lt {b : Board σ} {t : Tree} {bot : Nat} (hwf : WF t) :
    ∀ fuel i s, i < t.length →
      (traverse_nodes b t bot i s fuel).1 < t.length := by
  intro fuel
  induction fuel with
  | zero => intro i s hi; exact hi
  | succ f ih =>
      intro i s hi
      simp only [traverse_nodes]
      by_cases hcond : (getNode t i).child_nodes ≠ [] ∧
          (getNode t i).untried_actions = []
      · rw [if_pos hcond]
        cases hpick : pickChild t (oppFlag b (getNode t i) s bot)
            (getNode t i).child_nodes with
        | none => exact hi
        | some c =>
            have hmem := pickChild_mem hpick
            have hlt := (hwf.2.2.2 i hi c hmem).2.1
            obtain ⟨a, j⟩ := c
            exact ih j (b.next_state s a) hlt
      · rw [if_neg hcond]; exact hi

/-! ### Expansion lemmas -/

theorem assocSet_mem {l : List (Action × Nat)} {a : Action} {j : Nat}
    {p : Action × Nat} (h : p ∈ assocSet l a j) : p ∈ l ∨ p = (a, j) := by
  unfold assocSet at h
  by_cases hin : l.any (fun q => q.1 = a)
  · rw [if_pos hin] at h
    rcases List.mem_map.mp h with ⟨q, hq, hqe⟩
    by_cases hqa : q.1 = a
    · rw [if_pos hqa] at hqe; exact Or.inr hqe.symm
    · rw [if_neg hqa] at hqe; exact Or.inl (hqe ▸ hq)
  · rw [if_neg hin] at h
    rcases List.mem_append.mp h with h1 | h1
    · exact Or.inl h1
    · exact Or.inr (List.mem_singleton.mp h1)

theorem expand_ret (b : Board σ) (t : Tree) (i : Nat) (s : σ) :
    (expand_leaf b t i s).2 = (i, s) := by
  simp only [expand_leaf]
  cases h : (getNode t i).untried_actions.getLast? <;> simp [h]

theorem expand_noop {b : Board σ} {t : Tree} {i : Nat} {s : σ}
    (h : (getNode t i).untried_actions = []) : expand_leaf b t i s = (t, i, s) := by
  simp only [expand_leaf, h]
  rfl

theorem getLast?_some_of_ne_nil {l : List Action} (h : l ≠ []) :
    ∃ a, l.getLast? = some a := by
  cases hl : l.getLast? with
  | none => exact absurd (List.getLast?_eq_none_iff.mp hl) h
  | some a => exact ⟨a, rfl⟩

/-- The node stored at the expanded index after a successful expansion. -/
def expandedNode (t : Tree) (n : MCTSNode) (a : Action) : MCTSNode :=
  { n with untried_actions := n.untried_actions.dropLast,
           child_nodes := assocSet n.child_nodes a t.length }

theorem expand_tree_eq {b : Board σ} {t : Tree} {i : Nat} {s : σ} {a : Action}
    (h : (getNode t i).untried_actions.getLast? = some a) :
    (expand_leaf b t i s).1 =
      setNode t i (expandedNode t (getNode t i) a) ++
        [mkNode (some i) (some a) (b.legal_actions (b.next_state s a))] := by
  simp only [expand_leaf, h, expandedNode]

theorem expand_length {b : Board σ} {t : Tree} {i : Nat} {s : σ} {a : Action}
    (h : (getNode t i).untried_actions.getLast? = some a) :
    (expand_leaf b t i s).1.length = t.length + 1 := by
  rw [expand_tree_eq h]
  simp [length_setNode]

theorem expand_getNode_new {b : Board σ} {t : Tree} {i : Nat} {s : σ} {a : Action}
    (h : (getNode t i).untried_actions.getLast? = some a) :
    getNode (expand_leaf b t i s).1 t.length =
      mkNode (some i) (some a) (b.legal_actions (b.next_state s a)) := by
  rw [expand_tree_eq h]
  have : t.length = (setNode t i (expandedNode t (getNode t i) a)).length :=
    (length_setNode t i _).symm
  rw [this]
  exact getNode_append_len _ _

theorem expand_getNode_old {b : Board σ} {t : Tree} {i : Nat} {s : σ} {a : Action}
    (h : (getNode t i).untried_actions.getLast? = some a) (hi : i < t.length)
    (j : Nat) (hj : j < t.length) :
    getNode (expand_leaf b t i s).1 j =
      if j = i then expandedNode t (getNode t i) a else getNode t j := by
  rw [expand_tree_eq h]
  rw [getNode_append_lt _ _ j (by rwa [length_setNode])]
  by_cases hji : j = i
  · subst hji; rw [if_pos rfl]; exact getNode_setNode_self t j _ (by omega)
  · rw [if_neg hji]; exact getNode_setNode_ne t i j _ hji

theorem expand_visits {b : Board σ} {t : Tree} {i : Nat} {s : σ} {a : Action}
    (h : (getNode t i).untried_actions.getLast? = some a) (hi : i < t.length)
    (j : Nat) (hj : j < t.length) :
    (getNode (expand_leaf b t i s).1 j).visits = (getNode t j).visits := by
  rw [expand_getNode_old h hi j hj]
  by_cases hji : j = i
  · rw [if_pos hji, expandedNode]; subst hji; rfl
  · rw [if_neg hji]

theorem expand_WF {b : Board σ} {t : Tree} {i : Nat} {s : σ} {a : Action}
    (hwf : WF t) (h : (getNode t i).untried_actions.getLast? = some a)
    (hi : i < t.length) : WF (expand_leaf b t i s).1 := by
  have hlen := expand_length (b := b) (s := s) h
  have hnew := expand_getNode_new (b := b) (s := s) h
  have hold := expand_getNode_old (b := b) (s := s) h hi
  refine ⟨by omega, ?_, ?_, ?_⟩
  · intro k hk
    rw [hlen] at hk
    by_cases hkl : k = t.length
    · subst hkl
      rw [hnew]
      have : t.length ≠ 0 := by have := hwf.1; omega
      simp [mkNode, this]
    · have hk2 : k < t.length := by omega
      rw [hold k hk2]
      by_cases hki : k = i
      · rw [if_pos hki, expandedNode]
        subst hki
        exact hwf.2.1 k hk2
      · rw [if_neg hki]
        exact hwf.2.1 k hk2
  · intro k hk
    rw [hlen] at hk
    by_cases hkl : k = t.length
    · subst hkl
      rw [hnew]
      exact hi
    · have hk2 : k < t.length := by omega
      rw [hold k hk2]
      by_cases hki : k = i
      · rw [if_pos hki, expandedNode]
        subst hki
        exact hwf.2.2.1 k hk2
      · rw [if_neg hki]
        exact hwf.2.2.1 k hk2
  · intro k hk p hp
    rw [hlen] at hk
    by_cases hkl : k = t.length
    · subst hkl
      rw [hnew] at hp
      simp [mkNode] at hp
    · have hk2 : k < t.length := by omega
      rw [hold k hk2] at hp
      by_cases hki : k = i
      · rw [if_pos hki] at hp
        subst hki
        rcases assocSet_mem hp with hin | hq
        · have hold2 := hwf.2.2.2 k hk2 p hin
          refine ⟨hold2.1, by omega, ?_⟩
          have hp2 : p.2 < t.length := hold2.2.1
          rw [hold p.2 hp2]
          by_cases hpk : p.2 = k
          · exact absurd hpk (by have := hold2.1; omega)
          · rw [if_neg hpk]; exact hold2.2.2
        · subst hq
          refine ⟨hk2, ?_, ?_⟩
          · show t.length < (expand_leaf b t k s).1.length
            omega
          · show (getNode (expand_leaf b t k s).1 t.length).parent = some k
            rw [hnew]
            rfl
      · rw [if_neg hki] at hp
        have hold2 := hwf.2.2.2 k hk2 p hp
        refine ⟨hold2.1, by omega, ?_⟩
        have hp2 : p.2 < t.length := hold2.2.1
        rw [hold p.2 hp2]
        by_cases hpi : p.2 = i
        · rw [if_pos hpi, expandedNode]
          subst hpi
          exact hold2.2.2
        · rw [if_neg hpi]
          exact hold2.2.2

end MCTS

namespace MCTS

/-! ### One-iteration lemmas -/

/-- `iterateOnce` in terms of the selected node: because `expand_leaf` hands
back the original node and state, the rollout always starts from the selected
node's state and backpropagation from the selected node. -/
theorem iterate_eq (b : Board σ) (s : σ) (bot : Nat) (t : Tree) (ch : Nat → Nat) :
    iterateOnce b s bot t ch =
      match is_win b (rollout b (traverse_nodes b t bot 0 s t.length).2 ch) bot with
      | none => .error ()
      | some won =>
          .ok (backpropagate won
            (if (getNode t (traverse_nodes b t bot 0 s t.length).1).untried_actions
                ≠ [] then
              (expand_leaf b t (traverse_nodes b t bot 0 s t.length).1
                (traverse_nodes b t bot 0 s t.length).2).1
            else t)
            (some (traverse_nodes b t bot 0 s t.length).1)
            (if (getNode t (traverse_nodes b t bot 0 s t.length).1).untried_actions
                ≠ [] then
              (expand_leaf b t (traverse_nodes b t bot 0 s t.length).1
                (traverse_nodes b t bot 0 s t.length).2).1
            else t).length) := by
  simp only [iterateOnce]
  by_cases hu : (getNode t (traverse_nodes b t bot 0 s t.length).1).untried_actions ≠ []
  · simp only [if_pos hu]
    have h1 : (expand_leaf b t (traverse_nodes b t bot 0 s t.length).1
        (traverse_nodes b t bot 0 s t.length).2).2.1 =
        (traverse_nodes b t bot 0 s t.length).1 := by rw [expand_ret]
    have h2 : (expand_leaf b t (traverse_nodes b t bot 0 s t.length).1
        (traverse_nodes b t bot 0 s t.length).2).2.2 =
        (traverse_nodes b t bot 0 s t.length).2 := by rw [expand_ret]
    rw [h1, h2]
  · simp only [if_neg hu]

/-- Completing one iteration preserves well-formedness and the visited-parents
invariant, bumps the root's visit count by exactly one, and never shrinks the
arena. -/
theorem iterate_ok {b : Board σ} {s : σ} {bot : Nat} {t t2 : Tree} {ch : Nat → Nat}
    (hwf : WF t) (h : iterateOnce b s bot t ch = .ok t2) :
    WF t2 ∧ (getNode t2 0).visits = (getNode t 0).visits + 1 ∧
      (VisitedInv t → VisitedInv t2) ∧ t.length ≤ t2.length := by
  rw [iterate_eq] at h
  set r := traverse_nodes b t bot 0 s t.length with hr
  have hi : r.1 < t.length := traverse_lt hwf t.length 0 s hwf.1
  by_cases hu : (getNode t r.1).untried_actions ≠ []
  · obtain ⟨a, ha⟩ := getLast?_some_of_ne_nil hu
    simp only [if_pos hu] at h
    cases hwin : is_win b (rollout b r.2 ch) bot with
    | none => rw [hwin] at h; exact absurd h (by simp)
    | some won =>
        rw [hwin] at h
        simp only [Except.ok.injEq] at h
        set tE := (expand_leaf b t r.1 r.2).1 with htE
        have hlenE : tE.length = t.length + 1 := expand_length ha
        have hwfE : WF tE := expand_WF hwf ha hi
        have hiE : r.1 < tE.length := by omega
        have hpE := parentLt_of_WF hwfE
        have hwf2 : WF t2 := h ▸ backprop_WF won tE.length hwfE hiE
        have hlen2 : t2.length = tE.length := h ▸ backprop_length won tE.length tE _
        have hvisroot : (getNode t2 0).visits = (getNode t 0).visits + 1 := by
          have h0mem : 0 ∈ chainGo tE (some r.1) tE.length :=
            chainGo_zero_mem hwfE tE.length r.1 hiE (by omega)
          have := backprop_getNode won tE.length tE r.1 hpE hiE 0
          rw [← h] at *
          rw [this, if_pos h0mem]
          have hv0 : (getNode tE 0).visits = (getNode t 0).visits :=
            expand_visits ha hi 0 (by have := hwf.1; omega)
          simp [bumpNode, hv0]
        refine ⟨hwf2, hvisroot, ?_, by omega⟩
        intro hvi k hk hck
        have hbs := backprop_structure won tE.length hpE hiE k
        have hchild : (getNode t2 k).child_nodes = (getNode tE k).child_nodes := by
          rw [← h]; exact hbs.2.1
        rw [hchild] at hck
        by_cases hknew : k = t.length
        · subst hknew
          rw [expand_getNode_new ha] at hck
          simp [mkNode] at hck
        · have hk2 : k < t.length := by rw [hlen2] at hk; omega
          by_cases hki : k = r.1
          · have hmem : r.1 ∈ chainGo tE (some r.1) tE.length := by
              rw [hlenE]
              exact chainGo_self_mem tE r.1 t.length
            have hb := backprop_getNode won tE.length tE r.1 hpE hiE r.1
            rw [hki, ← h, hb, if_pos hmem]
            simp [bumpNode]
          · have hchildt : (getNode tE k).child_nodes = (getNode t k).child_nodes := by
              rw [expand_getNode_old ha hi k hk2, if_neg hki]
            rw [hchildt] at hck
            have h1 : 1 ≤ (getNode t k).visits := hvi k hk2 hck
            have h2 : (getNode t k).visits ≤ (getNode tE k).visits := by
              rw [expand_visits ha hi k hk2]
            have h3 := backprop_visits_le won tE.length hpE hiE k
            rw [← h]
            omega
  · simp only [if_neg hu] at h
    cases hwin : is_win b (rollout b r.2 ch) bot with
    | none => rw [hwin] at h; exact absurd h (by simp)
    | some won =>
        rw [hwin] at h
        simp only [Except.ok.injEq] at h
        have hp := parentLt_of_WF hwf
        have hwf2 : WF t2 := h ▸ backprop_WF won t.length hwf hi
        have hlen2 : t2.length = t.length := h ▸ backprop_length won t.length t _
        have hvisroot : (getNode t2 0).visits = (getNode t 0).visits + 1 := by
          have h0mem : 0 ∈ chainGo t (some r.1) t.length :=
            chainGo_zero_mem hwf t.length r.1 hi (by omega)
          have := backprop_getNode won t.length t r.1 hp hi 0
          rw [← h] at *
          rw [this, if_pos h0mem]
          simp [bumpNode]
        refine ⟨hwf2, hvisroot, ?_, by omega⟩
        intro hvi k hk hck
        have hbs := backprop_structure won t.length hp hi k
        have hchild : (getNode t2 k).child_nodes = (getNode t k).child_nodes := by
          rw [← h]; exact hbs.2.1
        rw [hchild] at hck
        have hk2 : k < t.length := by omega
        have h1 : 1 ≤ (getNode t k).visits := hvi k hk2 hck
        have h3 := backprop_visits_le won t.length hp hi k
        rw [← h]
        omega

end MCTS

namespace MCTS

/-! ### Loop lemmas -/

theorem WF_singleton (l : List Action) : WF [mkNode none none l] := by
  refine ⟨by simp, ?_, ?_, ?_⟩
  · intro i hi
    have : i = 0 := by simpa using hi
    subst this
    simp [getNode, mkNode]
  · intro i hi
    have : i = 0 := by simpa using hi
    subst this
    simp [getNode, mkNode]
    exact trivial
  · intro i hi p hp
    have : i = 0 := by simpa using hi
    subst this
    simp [getNode, mkNode] at hp

theorem VisitedInv_singleton (l : List Action) :
    VisitedInv [mkNode none none l] := by
  intro i hi h
  have : i = 0 := by simpa using hi
  subst this
  simp [getNode, mkNode] at h

/-- Invariants carried through the loop of `think`: after `k` completed
iterations the arena is well-formed, nodes with children have been visited,
and the root has been visited exactly `k` times. -/
theorem thinkLoop_ok_inv {b : Board σ} {s : σ} {bot : Nat} {ch : Nat → Nat → Nat}
    {l : List Action} :
    ∀ k t2, thinkLoop b s bot ch k [mkNode none none l] = .ok t2 →
      WF t2 ∧ VisitedInv t2 ∧ (getNode t2 0).visits = k := by
  intro k
  induction k with
  | zero =>
      intro t2 h
      simp only [thinkLoop] at h
      simp only [Except.ok.injEq] at h
      rw [← h]
      exact ⟨WF_singleton l, VisitedInv_singleton l, by simp [getNode, mkNode]⟩
  | succ k ih =>
      intro t2 h
      simp only [thinkLoop] at h
      cases hk : thinkLoop b s bot ch k [mkNode none none l] with
      | error e => rw [hk] at h; exact absurd h (by simp)
      | ok t1 =>
          rw [hk] at h
          obtain ⟨hwf1, hvi1, hv1⟩ := ih t1 hk
          obtain ⟨hwf2, hv2, hvi2, _⟩ := iterate_ok hwf1 h
          exact ⟨hwf2, hvi2 hvi1, by omega⟩

/-- An iteration that fails the `is_win` assertion aborts the whole loop. -/
theorem thinkLoop_error {b : Board σ} {s : σ} {bot : Nat} {ch : Nat → Nat → Nat}
    {t : Tree} {e : Unit} (h1 : iterateOnce b s bot t (ch 0) = .error e) :
    ∀ k, 1 ≤ k → thinkLoop b s bot ch k t = .error e := by
  intro k
  induction k with
  | zero => intro h; exact absurd h (by omega)
  | succ k ih =>
      intro _
      by_cases hk : 1 ≤ k
      · simp only [thinkLoop, ih hk]
      · have : k = 0 := by omega
        subst this
        simp only [thinkLoop, h1]

theorem rolloutGo_no_legal {b : Board σ} {s : σ} {ch : Nat → Nat}
    (h : b.legal_actions s = []) (d : Nat) :
    ∀ fuel, rolloutGo b ch s d fuel = s := by
  intro fuel
  cases fuel with
  | zero => rfl
  | succ f =>
      simp only [rolloutGo, h]
      split <;> rfl

theorem rollout_no_legal {b : Board σ} {s : σ} {ch : Nat → Nat}
    (h : b.legal_actions s = []) : rollout b s ch = s :=
  rolloutGo_no_legal h 0 MAX_DEPTH

end MCTS

namespace MCTS

/-- One iteration on a childless, fully-expanded singleton root with no legal
actions: selection and expansion are no-ops, the rollout returns the root
state immediately, and backpropagation bumps only the root. -/
theorem iterate_terminal_root {b : Board σ} {s : σ} {bot : Nat} {ch : Nat → Nat}
    {o : Nat → Int} (hleg : b.legal_actions s = [])
    (hpv : b.points_values s = some o) (k w : Nat) :
    iterateOnce b s bot [⟨none, none, [], [], k, w⟩] ch =
      .ok [⟨none, none, [], [], k + 1, w + if o bot == 1 then 1 else 0⟩] := by
  have htrav : traverse_nodes b [(⟨none, none, [], [], k, w⟩ : MCTSNode)] bot 0 s 1 =
      (0, s) := by
    simp [traverse_nodes, getNode]
  have hgn : getNode [(⟨none, none, [], [], k, w⟩ : MCTSNode)] 0 =
      ⟨none, none, [], [], k, w⟩ := rfl
  simp only [iterateOnce, List.length_singleton, htrav, hgn, ne_eq,
    not_true_eq_false, if_false]
  rw [rollout_no_legal hleg]
  simp only [is_win, hpv]
  simp [backpropagate, setNode, getNode]

theorem thinkLoop_terminal_root {b : Board σ} {s : σ} {bot : Nat}
    {ch : Nat → Nat → Nat} {o : Nat → Int} (hleg : b.legal_actions s = [])
    (hpv : b.points_values s = some o) :
    ∀ k, thinkLoop b s bot ch k [mkNode none none []] =
      .ok [⟨none, none, [], [], k, if o bot == 1 then k else 0⟩] := by
  intro k
  induction k with
  | zero =>
      simp only [thinkLoop, mkNode]
      cases hb : o bot == 1 <;> simp
  | succ k ih =>
      simp only [thinkLoop, ih]
      rw [iterate_terminal_root hleg hpv]
      cases hb : o bot == 1 <;> simp

end MCTS

namespace MCTS

/-- Unfolding of `think`: run the loop, then extract the best root action. -/
theorem think_eq (b : Board σ) (s : σ) (ch : Nat → Nat → Nat) :
    think b s ch =
      Except.map (fun t => get_best_action t 0)
        (thinkLoop b s (b.current_player s) ch num_nodes
          [mkNode none none (b.legal_actions s)]) := rfl

/-! ### Concrete instances used as witnesses and counterexamples -/

/-- A one-ply game: one legal action at state 0, every other state terminal
and a win for every player. -/
def oneMove : Board Nat :=
  ⟨fun _ => 1, fun s => if s = 0 then [5] else [], fun _ _ => 1,
   fun s => s != 0, fun _ => some (fun _ => 1)⟩

/-- A game whose initial state is already terminal (no legal actions), with a
derivable outcome. -/
def noMove : Board Nat :=
  ⟨fun _ => 1, fun _ => [], fun _ _ => 1, fun _ => true,
   fun _ => some (fun _ => 0)⟩

/-- A game that never ends, always offers a move, and never reports an
outcome: rollouts from it always exhaust `MAX_DEPTH`. -/
def noEnd : Board Nat :=
  ⟨fun _ => 1, fun _ => [0], fun s _ => s + 1, fun _ => false, fun _ => none⟩

/-- A board used to exercise `expand_leaf` on a single expandable node. -/
def expBoard : Board Nat :=
  ⟨fun _ => 1, fun s => if s = 0 then [7] else [3], fun s a => s + a,
   fun _ => false, fun _ => none⟩

def chZero : Nat → Nat → Nat := fun _ _ => 0

def chZ : Nat → Nat := fun _ => 0

/-- The arena produced by one iteration of `think` on `oneMove`. -/
def T1val : Tree :=
  [⟨none, none, [(5, 1)], [], 1, 1⟩, ⟨some 0, some 5, [], [], 0, 0⟩]

/-- The arena produced by two iterations of `think` on `oneMove`. -/
def T2val : Tree :=
  [⟨none, none, [(5, 1)], [], 2, 2⟩, ⟨some 0, some 5, [], [], 1, 1⟩]

def ucbChild : MCTSNode := ⟨some 0, some 1, [], [], 10, 0⟩

def ucbT : Tree := [⟨none, none, [(1, 1)], [], 20, 5⟩, ucbChild]

/-! ### Claim C1 -/

/-- C1: evaluation of `expand_leaf` at a node with untried action list `[7]`.
The action is removed, the child is created at index 1 with the freshly
enumerated legal-action list `[3]` of its state 7 and registered under key 7 —
but the function returns the ORIGINAL node index 0 and the ORIGINAL state 0,
not the new child and the child's state, contradicting both the claim and the
docstring of `expand_leaf`. -/
theorem c1_expand_returns_original :
    expand_leaf expBoard [mkNode none none [7]] 0 0 =
      ([⟨none, none, [(7, 1)], [], 0, 0⟩, ⟨some 0, some 7, [], [3], 0, 0⟩], 0, 0) ∧
    (expand_leaf expBoard [mkNode none none [7]] 0 0).2 ≠
      (1, expBoard.next_state 0 7) := by
  decide

/-! ### Claim C2 -/

set_option maxRecDepth 100000 in
set_option maxHeartbeats 1000000 in
/-- C2 counterexample: on `noEnd` the rollout runs the full `MAX_DEPTH = 100`
steps without reaching a terminal state; `is_win` then fails its assertion
(`none`) instead of classifying the state as a non-win (`some false`), and the
whole of `think` aborts with an error. -/
theorem c2_depth_cap_is_error :
    rollout noEnd 0 chZ = 100 ∧
    noEnd.is_ended (rollout noEnd 0 chZ) = false ∧
    is_win noEnd (rollout noEnd 0 chZ) 1 = none ∧
    is_win noEnd (rollout noEnd 0 chZ) 1 ≠ some false ∧
    think noEnd 0 chZero = .error () := by
  have hiter : iterateOnce noEnd 0 1 [mkNode none none [0]] (chZero 0) = .error () := by
    rfl
  have hloop := @thinkLoop_error Nat noEnd 0 1 chZero [mkNode none none [0]] ()
    hiter num_nodes (by simp [num_nodes])
  refine ⟨rfl, rfl, rfl, by decide, ?_⟩
  have hcp : noEnd.current_player 0 = 1 := rfl
  have hla : noEnd.legal_actions 0 = [0] := rfl
  rw [think_eq, hcp, hla, hloop]
  rfl

/-- C2 amended: for a rollout result that is not rules-engine-terminal, the
driver classifies it using whatever outcome `points_values` reports for that
non-terminal state; but when no outcome is derivable it fails the `is_win`
assertion (modelled `none`) rather than treating it as a non-win. -/
theorem c2_amended_classification {σ : Type} (b : Board σ) (s : σ)
    (ch : Nat → Nat) (bot : Nat)
    (_hne : b.is_ended (rollout b s ch) = false) :
    (∀ o, b.points_values (rollout b s ch) = some o →
      is_win b (rollout b s ch) bot = some (o bot == 1)) ∧
    (b.points_values (rollout b s ch) = none →
      is_win b (rollout b s ch) bot = none) := by
  constructor
  · intro o h
    unfold is_win
    rw [h]
  · intro h
    unfold is_win
    rw [h]

set_option maxRecDepth 100000 in
set_option maxHeartbeats 1000000 in
/-- C2 witness: the amended statement applied to `noEnd` at state 0. -/
theorem c2_amended_witness :
    is_win noEnd (rollout noEnd 0 chZ) 1 = none :=
  (c2_amended_classification noEnd 0 chZ 1 rfl).2 rfl

/-! ### Claim C3 -/

/-- C3 counterexample: invoking the search on the already-terminal root of
`noMove` does NOT surface an error: `think` runs all `num_nodes = 1000`
iterations (the root's visit count reaches 1000) and returns `.ok none`
(Python `None`), not an explicit failure. -/
theorem c3_terminal_root_loops :
    think noMove 0 chZero = .ok none ∧
    thinkLoop noMove 0 1 chZero num_nodes [mkNode none none []] =
      .ok [⟨none, none, [], [], num_nodes, 0⟩] ∧
    num_nodes = 1000 := by
  have hl := @thinkLoop_terminal_root Nat noMove 0 1 chZero (fun _ => 0)
    rfl rfl num_nodes
  simp only [show (((fun _ => (0 : Int)) 1 == 1)) = false from rfl,
    Bool.false_eq_true, if_false] at hl
  have hcp : noMove.current_player 0 = 1 := rfl
  have hla : noMove.legal_actions 0 = [] := rfl
  refine ⟨?_, hl, rfl⟩
  rw [think_eq, hcp, hla, hl]
  rfl

/-- C3 amended: a root with no legal actions (whose state has a derivable
outcome) acquires no children, but the driver loops through all `num_nodes`
iterations — each backpropagating on the root, whose visit count reaches
`num_nodes` — and returns `None` (no action) instead of surfacing an explicit
"no decision possible" error. -/
theorem c3_amended_terminal_root {σ : Type} (b : Board σ) (s : σ)
    (ch : Nat → Nat → Nat) (o : Nat → Int) (hleg : b.legal_actions s = [])
    (hpv : b.points_values s = some o) :
    think b s ch = .ok none ∧
    ∃ t, thinkLoop b s (b.current_player s) ch num_nodes
        [mkNode none none (b.legal_actions s)] = .ok t ∧
      (getNode t 0).child_nodes = [] ∧ (getNode t 0).visits = num_nodes := by
  have hl := @thinkLoop_terminal_root σ b s (b.current_player s) ch o
    hleg hpv num_nodes
  constructor
  · rw [think_eq, hleg, hl]
    rfl
  · refine ⟨_, by rw [hleg]; exact hl, ?_, ?_⟩ <;> simp [getNode]

/-- C3 witness: the amended statement applied to `noMove`. -/
theorem c3_amended_witness : think noMove 0 chZero = .ok none :=
  (c3_amended_terminal_root noMove 0 chZero (fun _ => 0) rfl rfl).1

end MCTS

namespace MCTS

/-! ### Claim C4 -/

/-- C4: whenever the loop of `think` (with the bot identity and root node that
`think` builds) completes `k` iterations on a root with at least one legal
action, the root's visit count is exactly `k`: every iteration
backpropagates through the root.  In `think` itself `k` is `num_nodes`. -/
theorem c4_root_visit_conservation {σ : Type} (b : Board σ) (s : σ)
    (ch : Nat → Nat → Nat) (k : Nat) (t : Tree)
    (_hleg : b.legal_actions s ≠ [])
    (h : thinkLoop b s (b.current_player s) ch k
      [mkNode none none (b.legal_actions s)] = .ok t) :
    (getNode t 0).visits = k :=
  (thinkLoop_ok_inv k t h).2.2

/-- C4 witness: two iterations on the one-ply game `oneMove` leave the root
with exactly 2 visits. -/
theorem c4_witness : (getNode T2val 0).visits = 2 :=
  c4_root_visit_conservation oneMove 0 chZero 2 T2val (by decide) rfl

/-! ### Claim C5 -/

/-- C5: `backpropagate` started at node `i` bumps `visits` by exactly one on
every node of the parent chain `chainGo t (some i) t.length` (which contains
`i`, ends at the root 0, stays inside the arena, and repeats no node),
additionally bumps `wins` by exactly one on exactly those nodes when `won`,
leaves every node off the chain untouched, and does nothing when started at
`none` (a null node). -/
theorem c5_backprop_contract {t : Tree} (won : Bool) (i : Nat)
    (hwf : WF t) (hi : i < t.length) :
    backpropagate won t none t.length = t ∧
    (chainGo t (some i) t.length).Nodup ∧
    i ∈ chainGo t (some i) t.length ∧
    0 ∈ chainGo t (some i) t.length ∧
    (∀ j ∈ chainGo t (some i) t.length, j < t.length) ∧
    (∀ j ∈ chainGo t (some i) t.length,
      (getNode (backpropagate won t (some i) t.length) j).visits =
        (getNode t j).visits + 1 ∧
      (getNode (backpropagate won t (some i) t.length) j).wins =
        (getNode t j).wins + (if won then 1 else 0)) ∧
    (∀ j, j ∉ chainGo t (some i) t.length →
      getNode (backpropagate won t (some i) t.length) j = getNode t j) := by
  have hp := parentLt_of_WF hwf
  obtain ⟨f, hf⟩ : ∃ f, t.length = f + 1 := ⟨t.length - 1, by have := hwf.1; omega⟩
  refine ⟨backprop_none won t t.length, chainGo_nodup hp t.length i, ?_, ?_, ?_, ?_, ?_⟩
  · rw [hf]; exact chainGo_self_mem t i f
  · exact chainGo_zero_mem hwf t.length i hi (by omega)
  · intro j hj
    exact Nat.lt_of_le_of_lt (chainGo_le hp t.length i j hj) hi
  · intro j hj
    rw [backprop_getNode won t.length t i hp hi j, if_pos hj]
    exact ⟨rfl, rfl⟩
  · intro j hj
    rw [backprop_getNode won t.length t i hp hi j, if_neg hj]

/-- C5 witness: backpropagating a win from the child of `T2val` bumps both
nodes once each, and the chain `[1, 0]` is duplicate-free. -/
theorem c5_witness :
    (chainGo T2val (some 1) T2val.length).Nodup ∧
    0 ∈ chainGo T2val (some 1) T2val.length ∧
    (getNode (backpropagate true T2val (some 1) T2val.length) 0).visits =
      (getNode T2val 0).visits + 1 ∧
    (getNode (backpropagate true T2val (some 1) T2val.length) 1).wins =
      (getNode T2val 1).wins + 1 := by
  have h := c5_backprop_contract (t := T2val) true 1 (by decide) (by decide)
  refine ⟨h.2.1, h.2.2.2.1, (h.2.2.2.2.2.1 0 (by decide)).1, ?_⟩
  have hw := (h.2.2.2.2.2.1 1 (by decide)).2
  simpa using hw

/-! ### Claim C6 -/

/-- C6: the UCB score is `⊤` (positive infinity) for an unvisited child;
otherwise it is the win rate `wins/visits`, inverted to `1 - wins/visits`
when the opponent flag is set, plus
`explore_faction * sqrt(ln(parentVisits) / visits)` where `parentVisits` is
the visit count of the child's parent; and concretely, for a child with
`wins = 0`, `visits = 10` and the opponent flag set under a parent with 20
visits, the win-rate term is `1 - 0/10 = 1`, not `0`. -/
theorem c6_ucb_formula (t : Tree) (n : MCTSNode) (flag : Bool) :
    (n.visits = 0 → ucb t n flag = ⊤) ∧
    (∀ p, n.parent = some p → n.visits ≠ 0 →
      ucb t n flag =
        (((if flag then 1 - (n.wins : Real) / (n.visits : Real)
           else (n.wins : Real) / (n.visits : Real)) +
          explore_faction *
            Real.sqrt (Real.log ((getNode t p).visits : Real) /
              (n.visits : Real)) : Real) : WithTop Real)) ∧
    ucb ucbT ucbChild true =
      ((1 + explore_faction * Real.sqrt (Real.log (20 : Real) / (10 : Real)) :
        Real) : WithTop Real) := by
  refine ⟨?_, ?_, ?_⟩
  · intro h
    simp [ucb, h]
  · intro p hp hv
    simp only [ucb, if_neg hv, parentVisits, hp]
  · have hne : ¬ucbChild.visits = 0 := by decide
    have hpv : parentVisits ucbT ucbChild = 20 := rfl
    simp only [ucb]
    rw [if_neg hne, hpv]
    norm_num [show ucbChild.wins = 0 from rfl, show ucbChild.visits = 10 from rfl]

/-- C6 witness: a zero-visit child scores `⊤`, by the formula theorem. -/
theorem c6_witness : ucb [] (⟨none, none, [], [], 0, 0⟩ : MCTSNode) false = ⊤ :=
  (c6_ucb_formula [] ⟨none, none, [], [], 0, 0⟩ false).1 rfl

end MCTS

namespace MCTS

/-! ### Claim C7 -/

/-- Spec-side notion, following the claim's words: `m` is the
first-encountered maximum of `f` over `l`: every element scores at most
`f m`, and `m` occurs at a position strictly before which every element
scores strictly less. -/
def IsFirstMax {α : Type} (f : α → WithTop Real) (l : List α) (m : α) : Prop :=
  (∀ x ∈ l, f x ≤ f m) ∧
  ∃ k, ∃ hk : k < l.length, l.get ⟨k, hk⟩ = m ∧ ∀ x ∈ l.take k, f x < f m

open Classical in
theorem foldl_isFirstMax {α : Type} (f : α → WithTop Real) :
    ∀ (cs : List α) (c : α),
      IsFirstMax f (c :: cs)
        (cs.foldl (fun best c2 => if f c2 > f best then c2 else best) c) := by
  intro cs
  induction cs with
  | nil =>
      intro c
      exact ⟨by simp, 0, by simp, by simp, by simp⟩
  | cons c2 cs ih =>
      intro c
      simp only [List.foldl_cons]
      by_cases h : f c2 > f c
      · rw [if_pos h]
        obtain ⟨hb, k, hk, hget, htake⟩ := ih c2
        have hc2m : f c2 ≤
            f (cs.foldl (fun best c3 => if f c3 > f best then c3 else best) c2) :=
          hb c2 (List.mem_cons_self _ _)
        constructor
        · intro x hx
          rcases List.mem_cons.mp hx with rfl | hx
          · exact h.le.trans hc2m
          · exact hb x hx
        · cases k with
          | zero =>
              refine ⟨1, by simp, by simpa using hget, ?_⟩
              intro x hx
              simp only [List.take_succ_cons, List.take_zero] at hx
              rcases List.mem_singleton.mp hx with rfl
              exact h.trans_le hc2m
          | succ k2 =>
              have hk2 : k2 < cs.length := by simpa using hk
              have hc2s : f c2 <
                  f (cs.foldl (fun best c3 => if f c3 > f best then c3 else best) c2) := by
                refine htake c2 ?_
                simp [List.take_succ_cons]
              refine ⟨k2 + 2, by simpa using hk2, by simpa using hget, ?_⟩
              intro x hx
              simp only [List.take_succ_cons, List.mem_cons] at hx
              rcases hx with rfl | rfl | hx
              · exact h.trans hc2s
              · exact hc2s
              · refine htake x ?_
                simp [List.take_succ_cons, hx]
      · rw [if_neg h]
        obtain ⟨hb, k, hk, hget, htake⟩ := ih c
        have hcm : f c ≤
            f (cs.foldl (fun best c3 => if f c3 > f best then c3 else best) c) :=
          hb c (List.mem_cons_self _ _)
        constructor
        · intro x hx
          rcases List.mem_cons.mp hx with rfl | hx
          · exact hcm
          · rcases List.mem_cons.mp hx with rfl | hx
            · exact (le_of_not_lt h).trans hcm
            · exact hb x (List.mem_cons_of_mem _ hx)
        · cases k with
          | zero =>
              exact ⟨0, by simp, by simpa using hget, by simp⟩
          | succ k2 =>
              have hk2 : k2 < cs.length := by simpa using hk
              have hcs : f c <
                  f (cs.foldl (fun best c3 => if f c3 > f best then c3 else best) c) := by
                refine htake c ?_
                simp [List.take_succ_cons]
              refine ⟨k2 + 2, by simpa using hk2, by simpa using hget, ?_⟩
              intro x hx
              simp only [List.take_succ_cons, List.mem_cons] at hx
              rcases hx with rfl | rfl | hx
              · exact hcs
              · exact (le_of_not_lt h).trans_lt hcs
              · refine htake x ?_
                simp [List.take_succ_cons, hx]

theorem pickChild_isFirstMax {t : Tree} {flag : Bool} {l : List (Action × Nat)}
    {c : Action × Nat} (h : pickChild t flag l = some c) :
    IsFirstMax (fun p => ucb t (getNode t p.2) flag) l c := by
  cases l with
  | nil => simp [pickChild] at h
  | cons c0 cs =>
      simp only [pickChild, Option.some_inj] at h
      rw [← h]
      exact foldl_isFirstMax (fun p => ucb t (getNode t p.2) flag) cs c0

/-- Spec-side contract of selection, following the claim's words: walk
downward only while the node has children and no untried actions; at each
step score every child with `ucb` — opponent flag false at the root
(index 0), else set iff the mover of the current state differs from the
bot — move to the first-encountered maximum child and advance the state by
applying its action; stop at the first node with untried actions or no
children. -/
inductive TraverseContract (b : Board σ) (t : Tree) (bot : Nat) :
    Nat → σ → Nat → σ → Prop where
  | stop : ∀ i s,
      (getNode t i).child_nodes = [] ∨ (getNode t i).untried_actions ≠ [] →
      TraverseContract b t bot i s i s
  | step : ∀ i s a j i2 s2,
      (getNode t i).child_nodes ≠ [] →
      (getNode t i).untried_actions = [] →
      IsFirstMax (fun p => ucb t (getNode t p.2)
          (if i = 0 then false else b.current_player s != bot))
        (getNode t i).child_nodes (a, j) →
      TraverseContract b t bot j (b.next_state s a) i2 s2 →
      TraverseContract b t bot i s i2 s2

theorem oppFlag_eq {b : Board σ} {t : Tree} (hwf : WF t) {i : Nat}
    (hi : i < t.length) (s : σ) (bot : Nat) :
    oppFlag b (getNode t i) s bot =
      if i = 0 then false else b.current_player s != bot := by
  unfold oppFlag
  cases hpar : (getNode t i).parent with
  | none => rw [if_pos ((hwf.2.1 i hi).mp hpar)]
  | some p =>
      have hne : i ≠ 0 := by
        intro h0
        have := (hwf.2.1 i hi).mpr h0
        rw [hpar] at this
        cases this
      rw [if_neg hne]

theorem traverse_contract_aux {b : Board σ} {t : Tree} {bot : Nat} (hwf : WF t) :
    ∀ fuel i s, i < t.length → t.length - i ≤ fuel →
      TraverseContract b t bot i s (traverse_nodes b t bot i s fuel).1
        (traverse_nodes b t bot i s fuel).2 := by
  intro fuel
  induction fuel with
  | zero =>
      intro i s hi hf
      exact absurd hf (by omega)
  | succ f ih =>
      intro i s hi hf
      simp only [traverse_nodes]
      by_cases hcond : (getNode t i).child_nodes ≠ [] ∧
          (getNode t i).untried_actions = []
      · rw [if_pos hcond]
        cases hpick : pickChild t (oppFlag b (getNode t i) s bot)
            (getNode t i).child_nodes with
        | none => exact absurd hpick (pickChild_ne_none hcond.1)
        | some c =>
            obtain ⟨a, j⟩ := c
            have hmem := pickChild_mem hpick
            have hlt := hwf.2.2.2 i hi (a, j) hmem
            have hfm := pickChild_isFirstMax hpick
            rw [oppFlag_eq hwf hi s bot] at hfm
            exact TraverseContract.step i s a j _ _ hcond.1 hcond.2 hfm
              (ih j (b.next_state s a) hlt.2.1 (by omega))
      · rw [if_neg hcond]
        refine TraverseContract.stop i s ?_
        by_cases hc : (getNode t i).child_nodes = []
        · exact Or.inl hc
        · right
          intro hu
          exact hcond ⟨hc, hu⟩

/-- C7: on a well-formed arena, `traverse_nodes` run from any node with the
arena-size fuel that the driver passes satisfies the selection contract: it
walks only while the node has children and no untried actions, at each step
moving to the first-encountered maximum-UCB child (opponent flag false at the
root, else set iff the mover of the current state differs from the bot) and
advancing the state with that child's action, and it stops at the first node
with untried actions or without children. -/
theorem c7_traverse_contract {σ : Type} (b : Board σ) (t : Tree) (bot : Nat)
    (i : Nat) (s : σ) (hwf : WF t) (hi : i < t.length) :
    TraverseContract b t bot i s
      (traverse_nodes b t bot i s t.length).1
      (traverse_nodes b t bot i s t.length).2 :=
  traverse_contract_aux hwf t.length i s hi (by omega)

/-- C7 witness: the contract holds of the concrete run of selection from the
root of a fresh `oneMove` tree. -/
theorem c7_witness :
    TraverseContract oneMove [mkNode none none [5]] 1 0 0
      (traverse_nodes oneMove [mkNode none none [5]] 1 0 0 1).1
      (traverse_nodes oneMove [mkNode none none [5]] 1 0 0 1).2 :=
  c7_traverse_contract oneMove [mkNode none none [5]] 1 0 0 (by decide) (by decide)

end MCTS

namespace MCTS

/-! ### Claim C8 -/

/-- Characterization of the scan inside `get_best_action`, with accumulator
`(some a0, v0)`: either no element beats `v0` and the accumulator survives, or
the result is the first element strictly exceeding everything before it and
weakly dominating everything, with visit count above `v0`. -/
theorem foldBest_spec (t : Tree) :
    ∀ (cs : List (Action × Nat)) (a0 : Action) (v0 : Nat),
      ((cs.foldl (fun acc p => if ((getNode t p.2).visits : Int) > acc.2
          then (some p.1, ((getNode t p.2).visits : Int)) else acc)
        ((some a0 : Option Action), (v0 : Int))) = (some a0, (v0 : Int)) ∧
        ∀ p ∈ cs, (getNode t p.2).visits ≤ v0) ∨
      (∃ k, ∃ hk : k < cs.length,
        (cs.foldl (fun acc p => if ((getNode t p.2).visits : Int) > acc.2
            then (some p.1, ((getNode t p.2).visits : Int)) else acc)
          ((some a0 : Option Action), (v0 : Int))) =
          (some (cs.get ⟨k, hk⟩).1, ((getNode t (cs.get ⟨k, hk⟩).2).visits : Int)) ∧
        v0 < (getNode t (cs.get ⟨k, hk⟩).2).visits ∧
        (∀ p ∈ cs, (getNode t p.2).visits ≤ (getNode t (cs.get ⟨k, hk⟩).2).visits) ∧
        (∀ p ∈ cs.take k,
          (getNode t p.2).visits < (getNode t (cs.get ⟨k, hk⟩).2).visits)) := by
  intro cs
  induction cs with
  | nil =>
      intro a0 v0
      exact Or.inl ⟨rfl, by simp⟩
  | cons c cs ih =>
      intro a0 v0
      simp only [List.foldl_cons]
      by_cases hgt : ((getNode t c.2).visits : Int) > ((v0 : Nat) : Int)
      · rw [if_pos hgt]
        have hv0 : v0 < (getNode t c.2).visits := by exact_mod_cast hgt
        rcases ih c.1 (getNode t c.2).visits with ⟨he, hall⟩ | ⟨k, hk, he, hv, hall, htake⟩
        · refine Or.inr ⟨0, by simp, ?_, ?_, ?_, by simp⟩
          · simpa using he
          · simpa using hv0
          · intro p hp
            rcases List.mem_cons.mp hp with rfl | hp
            · simp
            · simpa using hall p hp
        · refine Or.inr ⟨k + 1, by simpa using hk, by simpa using he, ?_, ?_, ?_⟩
          · simpa using hv0.trans hv
          · intro p hp
            rcases List.mem_cons.mp hp with rfl | hp
            · simpa using hv.le
            · simpa using hall p hp
          · intro p hp
            simp only [List.take_succ_cons, List.mem_cons] at hp
            rcases hp with rfl | hp
            · simpa using hv
            · simpa using htake p hp
      · rw [if_neg hgt]
        have hv0 : (getNode t c.2).visits ≤ v0 := by
          have := le_of_not_lt hgt
          exact_mod_cast this
        rcases ih a0 v0 with ⟨he, hall⟩ | ⟨k, hk, he, hv, hall, htake⟩
        · refine Or.inl ⟨he, ?_⟩
          intro p hp
          rcases List.mem_cons.mp hp with rfl | hp
          · exact hv0
          · exact hall p hp
        · refine Or.inr ⟨k + 1, by simpa using hk, by simpa using he, ?_, ?_, ?_⟩
          · simpa using hv
          · intro p hp
            rcases List.mem_cons.mp hp with rfl | hp
            · simpa using hv0.trans hv.le
            · simpa using hall p hp
          · intro p hp
            simp only [List.take_succ_cons, List.mem_cons] at hp
            rcases hp with rfl | hp
            · simpa using hv0.trans_lt hv
            · simpa using htake p hp

/-- C8: `get_best_action` returns the action of the root child with the
strictly highest visit count, ties broken by the first-encountered maximum in
children order (every child weakly below it, every earlier child strictly
below it); when the root has no children it returns `none` (no action — the
condition the caller must treat as an error). -/
theorem c8_best_action (t : Tree) (r : Nat) :
    ((getNode t r).child_nodes = [] → get_best_action t r = none) ∧
    ((getNode t r).child_nodes ≠ [] →
      ∃ k, ∃ hk : k < (getNode t r).child_nodes.length,
        get_best_action t r = some ((getNode t r).child_nodes.get ⟨k, hk⟩).1 ∧
        (∀ p ∈ (getNode t r).child_nodes, (getNode t p.2).visits ≤
          (getNode t ((getNode t r).child_nodes.get ⟨k, hk⟩).2).visits) ∧
        (∀ p ∈ (getNode t r).child_nodes.take k, (getNode t p.2).visits <
          (getNode t ((getNode t r).child_nodes.get ⟨k, hk⟩).2).visits)) := by
  constructor
  · intro h
    simp [get_best_action, h]
  · intro h
    cases hc : (getNode t r).child_nodes with
    | nil => exact absurd hc h
    | cons c cs =>
        unfold get_best_action
        rw [hc]
        simp only [List.foldl_cons]
        have hfirst : (((getNode t c.2).visits : Int) > (-1 : Int)) := by
          have := Int.natCast_nonneg (getNode t c.2).visits
          omega
        rw [if_pos hfirst]
        rcases foldBest_spec t cs c.1 (getNode t c.2).visits
          with ⟨he, hall⟩ | ⟨k, hk, he, hv, hall, htake⟩
        · refine ⟨0, by simp, ?_, ?_, by simp⟩
          · rw [he]
            simp
          · intro p hp
            rcases List.mem_cons.mp hp with rfl | hp
            · simp
            · simpa using hall p hp
        · refine ⟨k + 1, by simpa using hk, ?_, ?_, ?_⟩
          · rw [he]
            simp
          · intro p hp
            rcases List.mem_cons.mp hp with rfl | hp
            · simpa using hv.le
            · simpa using hall p hp
          · intro p hp
            simp only [List.take_succ_cons, List.mem_cons] at hp
            rcases hp with rfl | hp
            · simpa using hv
            · simpa using htake p hp

/-- C8 witness: a childless root yields no action. -/
theorem c8_witness : get_best_action [mkNode none none []] 0 = none :=
  (c8_best_action [mkNode none none []] 0).1 rfl

end MCTS

namespace MCTS

/-! ### Claim C9 -/

/-- On a well-formed arena in which every node with children has been visited,
every `node.parent.visits` value read by `ucb` during a run of selection is at
least 1. -/
theorem selPV_ge_one {b : Board σ} {t : Tree} {bot : Nat} (hwf : WF t)
    (hvi : VisitedInv t) :
    ∀ fuel i s, i < t.length →
      ∀ v ∈ selParentVisits b t bot i s fuel, 1 ≤ v := by
  intro fuel
  induction fuel with
  | zero =>
      intro i s hi v hv
      simp [selParentVisits] at hv
  | succ f ih =>
      intro i s hi v hv
      simp only [selParentVisits] at hv
      by_cases hcond : (getNode t i).child_nodes ≠ [] ∧
          (getNode t i).untried_actions = []
      · rw [if_pos hcond] at hv
        rcases List.mem_append.mp hv with hv | hv
        · rcases List.mem_map.mp hv with ⟨p, hp, hpe⟩
          have hwfc := hwf.2.2.2 i hi p hp
          have hpv : parentVisits t (getNode t p.2) = (getNode t i).visits := by
            unfold parentVisits
            rw [hwfc.2.2]
          rw [← hpe, hpv]
          exact hvi i hi hcond.1
        · cases hpick : pickChild t (oppFlag b (getNode t i) s bot)
              (getNode t i).child_nodes with
          | none => rw [hpick] at hv; simp at hv
          | some c =>
              obtain ⟨a, j⟩ := c
              rw [hpick] at hv
              have hlt := hwf.2.2.2 i hi (a, j) (pickChild_mem hpick)
              exact ih j (b.next_state s a) hlt.2.1 v hv
      · rw [if_neg hcond] at hv
        simp at hv

/-- C9: after any number of completed iterations of the loop of `think`, every
`node.parent.visits` value read by `ucb` during the next selection pass from
the root is at least 1: children are only compared under a parent that has
already been visited, so `ln(0)` is never evaluated. -/
theorem c9_selection_parent_visits {σ : Type} (b : Board σ) (s : σ)
    (ch : Nat → Nat → Nat) (k : Nat) (t : Tree)
    (h : thinkLoop b s (b.current_player s) ch k
      [mkNode none none (b.legal_actions s)] = .ok t) :
    ∀ v ∈ selParentVisits b t (b.current_player s) 0 s t.length, 1 ≤ v := by
  obtain ⟨hwf, hvi, _⟩ := thinkLoop_ok_inv k t h
  exact selPV_ge_one hwf hvi t.length 0 s hwf.1

/-- C9 witness: after two iterations on `oneMove`, selection reads exactly one
parent-visit value, namely the root's visit count 2, and it is at least 1. -/
theorem c9_witness :
    selParentVisits oneMove T2val 1 0 0 T2val.length = [2] ∧ 1 ≤ (2 : Nat) :=
  ⟨rfl, c9_selection_parent_visits oneMove 0 chZero 2 T2val rfl 2
    (by rw [show selParentVisits oneMove T2val (oneMove.current_player 0) 0 0
          T2val.length = [2] from rfl]
        simp)⟩

/-! ### Claim C10 -/

/-- C10: in an iteration of `think` whose selected node still has untried
actions (so `expand_leaf` creates a new child), the rollout starts from the
SELECTED node's state and backpropagation starts from the SELECTED node — not
from the new child — because `expand_leaf` returns the original pair; hence
when the iteration completes, the new child (stored at the old arena size)
still has `visits = 0` and `wins = 0`. -/
theorem c10_fresh_child {σ : Type} (b : Board σ) (s : σ) (bot : Nat) (t : Tree)
    (ch : Nat → Nat) (hwf : WF t)
    (hu : (getNode t (traverse_nodes b t bot 0 s t.length).1).untried_actions
      ≠ []) :
    (iterateOnce b s bot t ch =
      match is_win b (rollout b (traverse_nodes b t bot 0 s t.length).2 ch) bot with
      | none => .error ()
      | some won =>
          .ok (backpropagate won
            (expand_leaf b t (traverse_nodes b t bot 0 s t.length).1
              (traverse_nodes b t bot 0 s t.length).2).1
            (some (traverse_nodes b t bot 0 s t.length).1)
            (expand_leaf b t (traverse_nodes b t bot 0 s t.length).1
              (traverse_nodes b t bot 0 s t.length).2).1.length)) ∧
    (∀ t2, iterateOnce b s bot t ch = .ok t2 →
      t2.length = t.length + 1 ∧
      (getNode t2 t.length).parent =
        some (traverse_nodes b t bot 0 s t.length).1 ∧
      (getNode t2 t.length).visits = 0 ∧ (getNode t2 t.length).wins = 0) := by
  have heq := iterate_eq b s bot t ch
  rw [if_pos hu] at heq
  refine ⟨heq, ?_⟩
  intro t2 h
  rw [heq] at h
  have hi : (traverse_nodes b t bot 0 s t.length).1 < t.length :=
    traverse_lt hwf t.length 0 s hwf.1
  obtain ⟨a, ha⟩ := getLast?_some_of_ne_nil hu
  have hlenE := expand_length (b := b) (s := (traverse_nodes b t bot 0 s t.length).2) ha
  have hwfE := expand_WF (b := b) (s := (traverse_nodes b t bot 0 s t.length).2) hwf ha hi
  have hnew := expand_getNode_new (b := b) (s := (traverse_nodes b t bot 0 s t.length).2) ha
  cases hwin : is_win b (rollout b (traverse_nodes b t bot 0 s t.length).2 ch) bot with
  | none => rw [hwin] at h; exact absurd h (by simp)
  | some won =>
      rw [hwin] at h
      simp only [Except.ok.injEq] at h
      have hoff : t.length ∉ chainGo
          (expand_leaf b t (traverse_nodes b t bot 0 s t.length).1
            (traverse_nodes b t bot 0 s t.length).2).1
          (some (traverse_nodes b t bot 0 s t.length).1)
          (expand_leaf b t (traverse_nodes b t bot 0 s t.length).1
            (traverse_nodes b t bot 0 s t.length).2).1.length := by
        intro hmem
        have := chainGo_le (parentLt_of_WF hwfE) _ _ _ hmem
        omega
      have hiE : (traverse_nodes b t bot 0 s t.length).1 <
          (expand_leaf b t (traverse_nodes b t bot 0 s t.length).1
            (traverse_nodes b t bot 0 s t.length).2).1.length := by
        omega
      have hsame := backprop_getNode_offchain won _ (parentLt_of_WF hwfE) hiE hoff
      rw [← h]
      refine ⟨by rw [backprop_length]; omega, ?_, ?_, ?_⟩ <;>
        rw [hsame, hnew] <;> rfl

/-- C10 witness: the first iteration on `oneMove` produces `T1val`, whose new
child (index 1) has zero visits and wins and points back to the selected
root. -/
theorem c10_witness :
    (getNode T1val 1).visits = 0 ∧ (getNode T1val 1).wins = 0 ∧
    (getNode T1val 1).parent = some 0 := by
  have h := (c10_fresh_child oneMove 0 1 [mkNode none none [5]] (chZero 0)
    (by decide) (by decide)).2 T1val rfl
  exact ⟨h.2.2.1, h.2.2.2, h.2.1⟩

end MCTS
